import Mathlib

/-!
Verification of the CosyVoice GUI repository (`cosyvoice_gui.py`).

The development shallowly embeds the pure logic of the program:

* `process_text_by_lines` — the text segmentation routine (source lines 31-61),
  modelled on `List Char` (Python strings are sequences of code points, so
  `List.length` agrees with Python `len`).
* `runThread` — the observable behaviour of `SynthesisThread.run`
  (source lines 81-190): which model inference entry points are invoked,
  with which arguments, which audio buffers are collected, whether a file
  is saved, and whether the `finished` or `error` signal is emitted.
  The external CosyVoice model and `load_wav` are oracles supplied by an
  `Env`; file-system effects (makedirs, soundfile write) are assumed to
  succeed, which is the only case expressible without modelling OS failure.
-/

namespace CosyVoice

/-- Python `str.isspace` restricted to the ASCII whitespace characters
(space, tab, newline, carriage return, vertical tab, form feed); these are
the whitespace characters `str.strip()` removes that can appear in the
GUI's text inputs. -/
def pySpace (c : Char) : Bool :=
  c = ' ' || c = '\t' || c = '\n' || c = '\r' || c = '\x0b' || c = '\x0c'

/-- Removal of trailing whitespace, the right half of Python `str.strip()`. -/
def dropRightSpace (l : List Char) : List Char :=
  (l.reverse.dropWhile pySpace).reverse

/-- Python `str.strip()`: remove leading and trailing whitespace. -/
def pyStrip (l : List Char) : List Char :=
  dropRightSpace (l.dropWhile pySpace)

/-- Helper for `splitNl`: prepend a character to the first chunk. -/
def consHead (c : Char) : List (List Char) → List (List Char)
  | [] => [[c]]
  | l :: ls => (c :: l) :: ls

/-- Python `str.split('\n')`: split at every newline, keeping empty chunks
(`"".split('\n') == [""]`, `"a\n".split('\n') == ["a", ""]`). -/
def splitNl : List Char → List (List Char)
  | [] => [[]]
  | c :: cs => if c = '\n' then [] :: splitNl cs else consHead c (splitNl cs)

/-- Python `'\n'.join`. -/
def joinNl : List (List Char) → List Char
  | [] => []
  | [l] => l
  | l :: l2 :: ls => l ++ '\n' :: joinNl (l2 :: ls)

/-- The `max_length = 150` constant of `process_text_by_lines`. -/
def maxLength : Nat := 150

/-- The `for line in lines` loop of `process_text_by_lines`
(source lines 40-59), with the `segments` accumulator and the
`current_segment` string as explicit state.  Each raw line is stripped;
empty lines are skipped; if `len(current_segment) + len(line) + 1`
exceeds `max_length` the current segment (if non-empty) is flushed and the
line starts a new segment, otherwise the line is appended after a
newline. -/
def segLoop (segments : List (List Char)) (current : List Char) :
    List (List Char) → List (List Char)
  | [] => if current.isEmpty then segments else segments ++ [current]
  | rawLine :: rest =>
    if (pyStrip rawLine).isEmpty then
      segLoop segments current rest
    else if current.length + (pyStrip rawLine).length + 1 > maxLength then
      segLoop (if current.isEmpty then segments else segments ++ [current]) (pyStrip rawLine) rest
    else if current.isEmpty then
      segLoop segments (pyStrip rawLine) rest
    else
      segLoop segments (current ++ '\n' :: pyStrip rawLine) rest

/-- `process_text_by_lines` (source lines 31-61):
`lines = text.strip().split('\n')`, then the accumulation loop, then the
final flush of `current_segment`. -/
def process_text_by_lines (text : List Char) : List (List Char) :=
  segLoop [] [] (splitNl (pyStrip text))

/-- The same loop on lines that are already stripped and non-empty
(the stripping and empty-line skipping of `segLoop` factored out). -/
def cleanLoop (segments : List (List Char)) (current : List Char) :
    List (List Char) → List (List Char)
  | [] => if current.isEmpty then segments else segments ++ [current]
  | line :: rest =>
    if current.length + line.length + 1 > maxLength then
      cleanLoop (if current.isEmpty then segments else segments ++ [current]) line rest
    else if current.isEmpty then
      cleanLoop segments line rest
    else
      cleanLoop segments (current ++ '\n' :: line) rest

/-- Greedy accumulation seeded with a first line: emit the current segment
when adding the next line (plus a newline separator) would exceed the
limit, otherwise merge. -/
def refLoop (current : List Char) : List (List Char) → List (List Char)
  | [] => [current]
  | line :: rest =>
    if current.length + line.length + 1 > maxLength then
      current :: refLoop line rest
    else
      refLoop (current ++ '\n' :: line) rest

/-- Greedy segmentation of a prepared list of lines. -/
def greedyFrom : List (List Char) → List (List Char)
  | [] => []
  | l :: ls => refLoop l ls

/-- The non-empty stripped lines of a text: split on newlines, strip each
line, drop the lines that become empty. -/
def cleanLines (t : List Char) : List (List Char) :=
  ((splitNl t).map pyStrip).filter (fun l => !l.isEmpty)

/-- Modelled from the spec: the reference segmentation policy in the
spec's own words — "split the input on newlines, drop empty lines, and
greedily accumulate lines until the next line would exceed the
150-character limit".  Note: no whitespace stripping, and only literally
empty lines are dropped. -/
def specSegments (t : List Char) : List (List Char) :=
  greedyFrom ((splitNl t).filter (fun l => !l.isEmpty))

/-- The reference policy amended with the stripping the code performs:
lines are whitespace-stripped and blank (all-whitespace) lines are
dropped before the greedy accumulation. -/
def specSegmentsStripped (t : List Char) : List (List Char) :=
  greedyFrom (cleanLines t)

/-- Helper: append a character to the last chunk of a split. -/
def appLast : List (List Char) → Char → List (List Char)
  | [], c => [[c]]
  | [l], c => [l ++ [c]]
  | l :: l2 :: ls, c => l :: appLast (l2 :: ls) c

theorem splitNl_ne_nil (t : List Char) : splitNl t ≠ [] := by
  induction t with
  | nil => simp [splitNl]
  | cons c cs ih =>
    simp only [splitNl]
    split
    · simp
    · rcases h : splitNl cs with _ | ⟨m, ms⟩
      · exact absurd h ih
      · simp [consHead]

theorem nl_not_mem_splitNl {t l : List Char} (hl : l ∈ splitNl t) : '\n' ∉ l := by
  induction t generalizing l with
  | nil =>
    simp only [splitNl, List.mem_singleton] at hl
    simp [hl]
  | cons c cs ih =>
    simp only [splitNl] at hl
    by_cases hc : c = '\n'
    · rw [if_pos hc] at hl
      rcases List.mem_cons.mp hl with h | h
      · simp [h]
      · exact ih h
    · rw [if_neg hc] at hl
      rcases hs : splitNl cs with _ | ⟨m, ms⟩
      · exact absurd hs (splitNl_ne_nil cs)
      · rw [hs, consHead] at hl
        rcases List.mem_cons.mp hl with h | h
        · subst h
          intro hmem
          rcases List.mem_cons.mp hmem with h | h
          · exact hc h.symm
          · exact ih (hs ▸ List.mem_cons_self m ms) h
        · exact ih (hs ▸ List.mem_cons_of_mem m h)

theorem appLast_cons_cons (l l2 : List Char) (ls : List (List Char)) (c : Char) :
    appLast (l :: l2 :: ls) c = l :: appLast (l2 :: ls) c := rfl

theorem consHead_append_last (d : Char) (X : List (List Char)) (hX : X ≠ []) :
    consHead d (X ++ [[]]) = consHead d X ++ [[]] := by
  rcases X with _ | ⟨m, ms⟩
  · exact absurd rfl hX
  · simp [consHead]

theorem appLast_nil_cons (X : List (List Char)) (c : Char) (hX : X ≠ []) :
    appLast ([] :: X) c = [] :: appLast X c := by
  rcases X with _ | ⟨m, ms⟩
  · exact absurd rfl hX
  · rfl

theorem appLast_consHead (d : Char) (X : List (List Char)) (c : Char) (hX : X ≠ []) :
    appLast (consHead d X) c = consHead d (appLast X c) := by
  rcases X with _ | ⟨m, ms⟩
  · exact absurd rfl hX
  · rcases ms with _ | ⟨m2, ms2⟩
    · simp [consHead, appLast]
    · simp [consHead, appLast]

theorem splitNl_cons (c : Char) (cs : List Char) :
    splitNl (c :: cs) = if c = '\n' then [] :: splitNl cs else consHead c (splitNl cs) := rfl

theorem splitNl_append_single (u : List Char) (c : Char) :
    splitNl (u ++ [c]) =
      if c = '\n' then splitNl u ++ [[]] else appLast (splitNl u) c := by
  induction u with
  | nil =>
    by_cases hc : c = '\n' <;> simp [splitNl, consHead, appLast, hc]
  | cons d u ih =>
    have hne := splitNl_ne_nil u
    by_cases hc : c = '\n'
    · rw [if_pos hc, List.cons_append, splitNl_cons, ih, if_pos hc, splitNl_cons]
      by_cases hd : d = '\n'
      · rw [if_pos hd, if_pos hd, List.cons_append]
      · rw [if_neg hd, if_neg hd, consHead_append_last d _ hne]
    · rw [if_neg hc, List.cons_append, splitNl_cons, ih, if_neg hc, splitNl_cons]
      by_cases hd : d = '\n'
      · rw [if_pos hd, if_pos hd, appLast_nil_cons _ _ hne]
      · rw [if_neg hd, if_neg hd, appLast_consHead d _ c hne]

theorem pySpace_nl : pySpace '\n' = true := by decide

theorem dropWhile_self_of_eq {p : Char → Bool} {l : List Char}
    (h : l.dropWhile p = l) : (l.dropWhile p).dropWhile p = l.dropWhile p := by
  rw [h, h]

theorem dropWhile_idem (p : Char → Bool) (l : List Char) :
    (l.dropWhile p).dropWhile p = l.dropWhile p := by
  induction l with
  | nil => simp
  | cons a l ih =>
    by_cases hp : p a
    · simp [List.dropWhile_cons, hp, ih]
    · simp [List.dropWhile_cons, hp]

theorem pyStrip_nil : pyStrip [] = [] := by decide

theorem pyStrip_cons_space {c : Char} (hc : pySpace c = true) (l : List Char) :
    pyStrip (c :: l) = pyStrip l := by
  simp [pyStrip, List.dropWhile_cons, hc]

theorem dropRightSpace_append_space {c : Char} (hc : pySpace c = true) (l : List Char) :
    dropRightSpace (l ++ [c]) = dropRightSpace l := by
  simp [dropRightSpace, List.dropWhile_cons, hc]

theorem pyStrip_append_space {c : Char} (hc : pySpace c = true) (l : List Char) :
    pyStrip (l ++ [c]) = pyStrip l := by
  unfold pyStrip
  rw [List.dropWhile_append]
  split
  · next h =>
    rw [List.isEmpty_iff] at h
    rw [h]
    simp [List.dropWhile_cons, hc, dropRightSpace]
  · exact dropRightSpace_append_space hc _

theorem pyStrip_length_le (l : List Char) : (pyStrip l).length ≤ l.length := by
  unfold pyStrip dropRightSpace
  calc ((l.dropWhile pySpace).reverse.dropWhile pySpace).reverse.length
      = ((l.dropWhile pySpace).reverse.dropWhile pySpace).length := by
        rw [List.length_reverse]
    _ ≤ (l.dropWhile pySpace).reverse.length :=
        (List.dropWhile_sublist _).length_le
    _ = (l.dropWhile pySpace).length := by rw [List.length_reverse]
    _ ≤ l.length := (List.dropWhile_sublist _).length_le

theorem mem_of_mem_pyStrip {c : Char} {l : List Char} (h : c ∈ pyStrip l) : c ∈ l := by
  unfold pyStrip dropRightSpace at h
  rw [List.mem_reverse] at h
  have h2 := (List.dropWhile_sublist (l := (l.dropWhile pySpace).reverse) pySpace).mem h
  rw [List.mem_reverse] at h2
  exact (List.dropWhile_sublist pySpace).mem h2

theorem dropWhile_of_ne_nil_head {p : Char → Bool} {d : Char} {l : List Char}
    (hd : p d = false) : (d :: l).dropWhile p = d :: l := by
  simp [List.dropWhile_cons, hd]

theorem hd_not_space_of_dropWhile_eq {p : Char → Bool} {d : Char} {l : List Char}
    (h : (d :: l).dropWhile p = d :: l) : p d = false := by
  by_cases hp : p d
  · exfalso
    rw [List.dropWhile_cons, if_pos hp] at h
    have := congrArg List.length h
    have hle := (List.dropWhile_sublist (l := l) p).length_le
    simp at this
    omega
  · simpa using hp

theorem exists_decomp_dropRightSpace (u : List Char) :
    ∃ w, u = dropRightSpace u ++ w ∧ ∀ c ∈ w, pySpace c = true := by
  refine ⟨(u.reverse.takeWhile pySpace).reverse, ?_, ?_⟩
  · conv_lhs => rw [← u.reverse_reverse,
      ← List.takeWhile_append_dropWhile (p := pySpace) (l := u.reverse)]
    rw [List.reverse_append]
    rfl
  · intro c hc
    rw [List.mem_reverse] at hc
    exact List.mem_takeWhile_imp hc

theorem dropWhile_dropRightSpace {u : List Char} (hu : u.dropWhile pySpace = u) :
    (dropRightSpace u).dropWhile pySpace = dropRightSpace u := by
  obtain ⟨w, hw, _⟩ := exists_decomp_dropRightSpace u
  rcases hdr : dropRightSpace u with _ | ⟨d, ds⟩
  · simp
  · rw [hdr] at hw
    have hd : pySpace d = false := by
      apply hd_not_space_of_dropWhile_eq (l := ds ++ w)
      rw [List.cons_append] at hw
      rw [← hw]
      exact hu
    exact dropWhile_of_ne_nil_head hd

theorem dropRightSpace_idem (u : List Char) :
    dropRightSpace (dropRightSpace u) = dropRightSpace u := by
  unfold dropRightSpace
  rw [List.reverse_reverse, dropWhile_idem]

theorem pyStrip_idem (l : List Char) : pyStrip (pyStrip l) = pyStrip l := by
  conv_lhs => rw [pyStrip, pyStrip]
  rw [dropWhile_dropRightSpace (dropWhile_idem pySpace l), dropRightSpace_idem]
  rfl

theorem cleanLines_cons_space {c : Char} (hc : pySpace c = true) (t : List Char) :
    cleanLines (c :: t) = cleanLines t := by
  by_cases hnl : c = '\n'
  · simp [cleanLines, splitNl_cons, hnl, pyStrip_nil]
  · rcases hs : splitNl t with _ | ⟨m, ms⟩
    · exact absurd hs (splitNl_ne_nil t)
    · simp [cleanLines, splitNl_cons, hnl, hs, consHead, pyStrip_cons_space hc]

theorem cleanLines_dropWhile (t : List Char) :
    cleanLines (t.dropWhile pySpace) = cleanLines t := by
  induction t with
  | nil => rfl
  | cons c cs ih =>
    by_cases hc : pySpace c
    · rw [List.dropWhile_cons, if_pos hc, ih, cleanLines_cons_space hc]
    · rw [List.dropWhile_cons, if_neg hc]

theorem cleanLines_append_nl (u : List Char) :
    cleanLines (u ++ ['\n']) = cleanLines u := by
  unfold cleanLines
  rw [splitNl_append_single, if_pos rfl, List.map_append, List.filter_append]
  simp [pyStrip_nil]

theorem map_pyStrip_appLast {c : Char} (hc : pySpace c = true) :
    ∀ ls : List (List Char), ls ≠ [] → (appLast ls c).map pyStrip = ls.map pyStrip
  | [], h => absurd rfl h
  | [l], _ => by simp [appLast, pyStrip_append_space hc]
  | l :: l2 :: ls, _ => by
    rw [appLast_cons_cons, List.map_cons, List.map_cons,
      map_pyStrip_appLast hc (l2 :: ls) (by simp)]

theorem cleanLines_append_space {c : Char} (hc : pySpace c = true) (hnl : c ≠ '\n')
    (u : List Char) : cleanLines (u ++ [c]) = cleanLines u := by
  unfold cleanLines
  rw [splitNl_append_single, if_neg hnl, map_pyStrip_appLast hc _ (splitNl_ne_nil u)]

theorem cleanLines_append_spaces :
    ∀ w : List Char, (∀ c ∈ w, pySpace c = true) →
      ∀ u : List Char, cleanLines (u ++ w) = cleanLines u
  | [], _, u => by simp
  | c :: w, hw, u => by
    have hc : pySpace c = true := hw c (List.mem_cons_self _ _)
    have hw' : ∀ d ∈ w, pySpace d = true := fun d hd => hw d (List.mem_cons_of_mem _ hd)
    have h1 : u ++ c :: w = (u ++ [c]) ++ w := by simp
    rw [h1, cleanLines_append_spaces w hw' (u ++ [c])]
    by_cases hnl : c = '\n'
    · subst hnl
      exact cleanLines_append_nl u
    · exact cleanLines_append_space hc hnl u

theorem cleanLines_dropRightSpace (u : List Char) :
    cleanLines (dropRightSpace u) = cleanLines u := by
  obtain ⟨w, hw, hsp⟩ := exists_decomp_dropRightSpace u
  conv_rhs => rw [hw]
  rw [cleanLines_append_spaces w hsp]

theorem cleanLines_pyStrip (t : List Char) : cleanLines (pyStrip t) = cleanLines t := by
  unfold pyStrip
  rw [cleanLines_dropRightSpace, cleanLines_dropWhile]

theorem segLoop_eq_cleanLoop :
    ∀ (raws : List (List Char)) (segs : List (List Char)) (cur : List Char),
      segLoop segs cur raws = cleanLoop segs cur ((raws.map pyStrip).filter (fun l => !l.isEmpty))
  | [], segs, cur => by simp [segLoop, cleanLoop]
  | raw :: rest, segs, cur => by
    by_cases h : (pyStrip raw).isEmpty
    · have h1 : ((raw :: rest).map pyStrip).filter (fun l => !l.isEmpty) =
          (rest.map pyStrip).filter (fun l => !l.isEmpty) := by
        simp [List.filter_cons, h]
      have h2 : segLoop segs cur (raw :: rest) = segLoop segs cur rest := by
        simp [segLoop, h]
      rw [h1, h2, segLoop_eq_cleanLoop rest segs cur]
    · have h1 : ((raw :: rest).map pyStrip).filter (fun l => !l.isEmpty) =
          pyStrip raw :: (rest.map pyStrip).filter (fun l => !l.isEmpty) := by
        simp [List.filter_cons, h]
      rw [h1]
      simp only [segLoop, cleanLoop]
      rw [if_neg (by simp [h])]
      by_cases hlen : cur.length + (pyStrip raw).length + 1 > maxLength
      · rw [if_pos hlen, if_pos hlen, segLoop_eq_cleanLoop rest]
      · rw [if_neg hlen, if_neg hlen]
        by_cases hcur : cur.isEmpty
        · rw [if_pos hcur, if_pos hcur, segLoop_eq_cleanLoop rest]
        · rw [if_neg hcur, if_neg hcur, segLoop_eq_cleanLoop rest]

theorem process_eq_cleanLoop (text : List Char) :
    process_text_by_lines text = cleanLoop [] [] (cleanLines text) := by
  unfold process_text_by_lines
  rw [segLoop_eq_cleanLoop]
  have h : ((splitNl (pyStrip text)).map pyStrip).filter (fun l => !l.isEmpty) =
      cleanLines (pyStrip text) := rfl
  rw [h, cleanLines_pyStrip]

theorem cleanLoop_of_cur_ne :
    ∀ (lines : List (List Char)) (segs : List (List Char)) (cur : List Char),
      cur ≠ [] → (∀ l ∈ lines, l ≠ []) →
      cleanLoop segs cur lines = segs ++ refLoop cur lines
  | [], segs, cur, hcur, _ => by
    have hcurE : cur.isEmpty = false := by simpa [List.isEmpty_iff] using hcur
    simp [cleanLoop, refLoop, hcurE]
  | line :: rest, segs, cur, hcur, hall => by
    have hline : line ≠ [] := hall line (List.mem_cons_self _ _)
    have hrest : ∀ l ∈ rest, l ≠ [] := fun l hl => hall l (List.mem_cons_of_mem _ hl)
    have hcurE : cur.isEmpty = false := by simpa [List.isEmpty_iff] using hcur
    simp only [cleanLoop, refLoop]
    by_cases hlen : cur.length + line.length + 1 > maxLength
    · rw [if_pos hlen, if_pos hlen, hcurE]
      rw [if_neg (by simp), cleanLoop_of_cur_ne rest (segs ++ [cur]) line hline hrest]
      simp
    · rw [if_neg hlen, if_neg hlen, hcurE]
      rw [if_neg (by simp),
        cleanLoop_of_cur_ne rest segs (cur ++ '\n' :: line) (by simp) hrest]

theorem cleanLoop_nil_cur (lines : List (List Char)) (segs : List (List Char))
    (hall : ∀ l ∈ lines, l ≠ []) :
    cleanLoop segs [] lines = segs ++ greedyFrom lines := by
  cases lines with
  | nil => simp [cleanLoop, greedyFrom]
  | cons line rest =>
    have hline : line ≠ [] := hall line (List.mem_cons_self _ _)
    have hrest : ∀ l ∈ rest, l ≠ [] := fun l hl => hall l (List.mem_cons_of_mem _ hl)
    simp only [cleanLoop, greedyFrom]
    by_cases hlen : List.length ([] : List Char) + line.length + 1 > maxLength
    · rw [if_pos hlen, if_pos (by rfl)]
      exact cleanLoop_of_cur_ne rest segs line hline hrest
    · rw [if_neg hlen, if_pos (by rfl)]
      exact cleanLoop_of_cur_ne rest segs line hline hrest

theorem mem_cleanLines_ne_nil {t l : List Char} (h : l ∈ cleanLines t) : l ≠ [] := by
  unfold cleanLines at h
  rw [List.mem_filter] at h
  simpa [List.isEmpty_iff] using h.2

theorem process_eq_spec (text : List Char) :
    process_text_by_lines text = specSegmentsStripped text := by
  rw [process_eq_cleanLoop,
    cleanLoop_nil_cur _ _ (fun l hl => mem_cleanLines_ne_nil hl), List.nil_append]
  rfl

theorem joinNl_cons (l : List Char) {ls : List (List Char)} (h : ls ≠ []) :
    joinNl (l :: ls) = l ++ '\n' :: joinNl ls := by
  rcases ls with _ | ⟨m, ms⟩
  · exact absurd rfl h
  · rfl

theorem joinNl_append_one :
    ∀ g : List (List Char), g ≠ [] → ∀ m : List Char,
      joinNl (g ++ [m]) = joinNl g ++ '\n' :: m
  | [], h, _ => absurd rfl h
  | [l], _, m => rfl
  | l :: l2 :: g, _, m => by
    rw [List.cons_append, joinNl_cons l (by simp), joinNl_cons l (by simp),
      joinNl_append_one (l2 :: g) (by simp) m]
    simp

theorem joinNl_append :
    ∀ h k : List (List Char), h ≠ [] → k ≠ [] →
      joinNl (h ++ k) = joinNl h ++ '\n' :: joinNl k
  | [], _, hh, _ => absurd rfl hh
  | [l], k, _, hk => by
    rw [List.singleton_append, joinNl_cons l hk]
    rfl
  | l :: l2 :: h, k, _, hk => by
    rw [List.cons_append, joinNl_cons l (by simp), joinNl_cons l (by simp),
      joinNl_append (l2 :: h) k (by simp) hk]
    simp

theorem length_joinNl_cons (l : List Char) {ls : List (List Char)} (h : ls ≠ []) :
    (joinNl (l :: ls)).length = l.length + 1 + (joinNl ls).length := by
  rw [joinNl_cons l h]
  simp [List.length_append]
  omega

theorem head_length_le_joinNl (m : List Char) (rest : List (List Char)) :
    m.length ≤ (joinNl (m :: rest)).length := by
  rcases rest with _ | ⟨r, rs⟩
  · exact le_refl _
  · rw [length_joinNl_cons m (by simp)]
    omega

theorem joinNl_ne_nil : ∀ g : List (List Char), g ≠ [] → (∀ l ∈ g, l ≠ []) →
    joinNl g ≠ []
  | [], hg, _ => absurd rfl hg
  | [l], _, hl => by simpa using hl l (List.mem_singleton.mpr rfl)
  | l :: l2 :: g, _, _ => by
    rw [joinNl_cons l (by simp)]
    simp

theorem splitNl_append_noNl :
    ∀ l : List Char, '\n' ∉ l → ∀ (x m : List Char) (ms : List (List Char)),
      splitNl x = m :: ms → splitNl (l ++ x) = (l ++ m) :: ms
  | [], _, x, m, ms, hx => by simpa using hx
  | c :: l, hl, x, m, ms, hx => by
    have hc : ¬c = '\n' := fun h => hl (h ▸ List.mem_cons_self _ _)
    have hl' : '\n' ∉ l := fun h => hl (List.mem_cons_of_mem _ h)
    rw [List.cons_append, splitNl_cons, if_neg hc,
      splitNl_append_noNl l hl' x m ms hx]
    rfl

theorem splitNl_joinNl :
    ∀ g : List (List Char), g ≠ [] → (∀ l ∈ g, '\n' ∉ l) → splitNl (joinNl g) = g
  | [], hg, _ => absurd rfl hg
  | [l], _, hnl => by
    have h := splitNl_append_noNl l (hnl l (List.mem_singleton.mpr rfl)) [] [] [] rfl
    simpa using h
  | l :: l2 :: g, _, hnl => by
    have hl : '\n' ∉ l := hnl l (List.mem_cons_self _ _)
    have hrest : ∀ x ∈ l2 :: g, '\n' ∉ x := fun x hx => hnl x (List.mem_cons_of_mem _ hx)
    have ih := splitNl_joinNl (l2 :: g) (by simp) hrest
    rw [joinNl_cons l (by simp)]
    have hx : splitNl ('\n' :: joinNl (l2 :: g)) = [] :: (l2 :: g) := by
      rw [splitNl_cons, if_pos rfl, ih]
    have h := splitNl_append_noNl l hl _ [] (l2 :: g) hx
    simpa using h

/-- A line as it occurs inside a segment: non-empty, newline-free, and
already whitespace-stripped. -/
def cleanLine (l : List Char) : Prop := l ≠ [] ∧ '\n' ∉ l ∧ pyStrip l = l

theorem cleanLines_clean {t l : List Char} (h : l ∈ cleanLines t) : cleanLine l := by
  unfold cleanLines at h
  rw [List.mem_filter] at h
  obtain ⟨hmap, hne⟩ := h
  rw [List.mem_map] at hmap
  obtain ⟨raw, hraw, hstrip⟩ := hmap
  refine ⟨by simpa [List.isEmpty_iff] using hne, ?_, ?_⟩
  · intro hmem
    exact nl_not_mem_splitNl hraw (mem_of_mem_pyStrip (hstrip ▸ hmem))
  · rw [← hstrip, pyStrip_idem]

theorem cleanLines_joinNl (g : List (List Char)) (hg : g ≠ [])
    (hcl : ∀ l ∈ g, cleanLine l) : cleanLines (joinNl g) = g := by
  unfold cleanLines
  rw [splitNl_joinNl g hg (fun l hl => (hcl l hl).2.1)]
  have hmap : g.map pyStrip = g := by
    have h := List.map_congr_left (f := pyStrip) (g := id) (fun l hl => (hcl l hl).2.2)
    simpa using h
  rw [hmap]
  rw [List.filter_eq_self.mpr]
  intro a ha
  simpa [List.isEmpty_iff] using (hcl a ha).1

/-- The invariant of the groups of lines that make up one emitted segment:
non-empty, all lines clean, and either the joined segment is within the
150-character budget or the group is a single (possibly over-long) line. -/
def GoodGroup (h : List (List Char)) : Prop :=
  h ≠ [] ∧ (∀ l ∈ h, cleanLine l) ∧
    ((joinNl h).length ≤ maxLength ∨ ∃ l, h = [l])

theorem refLoop_groups :
    ∀ (ls g : List (List Char)),
      g ≠ [] → (∀ l ∈ g, cleanLine l) → (∀ l ∈ ls, cleanLine l) →
      ((joinNl g).length ≤ maxLength ∨ ∃ l, g = [l]) →
      ∃ gs : List (List (List Char)),
        refLoop (joinNl g) ls = gs.map joinNl ∧ gs.flatten = g ++ ls ∧
        ∀ h ∈ gs, GoodGroup h
  | [], g, hg, hcl, _, hbound =>
    ⟨[g], by simp [refLoop], by simp, by
      intro h hh
      rw [List.mem_singleton] at hh
      subst hh
      exact ⟨hg, hcl, hbound⟩⟩
  | m :: rest, g, hg, hcl, hls, hbound => by
    have hm : cleanLine m := hls m (List.mem_cons_self _ _)
    have hrest : ∀ l ∈ rest, cleanLine l := fun l hl => hls l (List.mem_cons_of_mem _ hl)
    simp only [refLoop]
    by_cases hlen : (joinNl g).length + m.length + 1 > maxLength
    · rw [if_pos hlen]
      obtain ⟨gs, h1, h2, h3⟩ :=
        refLoop_groups rest [m] (by simp) (by simpa using hm) hrest (Or.inr ⟨m, rfl⟩)
      have h1' : refLoop m rest = gs.map joinNl := h1
      refine ⟨g :: gs, ?_, ?_, ?_⟩
      · rw [List.map_cons, ← h1']
      · simp [h2]
      · intro h hh
        rcases List.mem_cons.mp hh with h' | h'
        · subst h'
          exact ⟨hg, hcl, hbound⟩
        · exact h3 _ h'
    · rw [if_neg hlen]
      have hjoin : joinNl g ++ '\n' :: m = joinNl (g ++ [m]) :=
        (joinNl_append_one g hg m).symm
      rw [hjoin]
      have hbound' : (joinNl (g ++ [m])).length ≤ maxLength ∨ ∃ l, g ++ [m] = [l] := by
        left
        rw [joinNl_append_one g hg m]
        simp [List.length_append]
        omega
      have hcl' : ∀ l ∈ g ++ [m], cleanLine l := by
        intro l hl
        rcases List.mem_append.mp hl with h' | h'
        · exact hcl l h'
        · rw [List.mem_singleton] at h'
          subst h'
          exact hm
      obtain ⟨gs, h1, h2, h3⟩ :=
        refLoop_groups rest (g ++ [m]) (by simp) hcl' hrest hbound'
      refine ⟨gs, h1, ?_, h3⟩
      rw [h2]
      simp

theorem process_structure (text : List Char) :
    ∃ gs : List (List (List Char)),
      process_text_by_lines text = gs.map joinNl ∧
      gs.flatten = cleanLines text ∧ ∀ h ∈ gs, GoodGroup h := by
  rw [process_eq_spec]
  unfold specSegmentsStripped
  rcases hcl : cleanLines text with _ | ⟨l, ls⟩
  · exact ⟨[], rfl, rfl, by simp⟩
  · have hclean : ∀ x ∈ cleanLines text, cleanLine x := fun x hx => cleanLines_clean hx
    rw [hcl] at hclean
    have hl : cleanLine l := hclean l (List.mem_cons_self _ _)
    have hls : ∀ x ∈ ls, cleanLine x := fun x hx => hclean x (List.mem_cons_of_mem _ hx)
    obtain ⟨gs, h1, h2, h3⟩ :=
      refLoop_groups ls [l] (by simp) (by simpa using hl) hls (Or.inr ⟨l, rfl⟩)
    refine ⟨gs, ?_, by rw [h2]; rfl, h3⟩
    unfold greedyFrom
    exact h1

theorem joinNl_glue (a b : List Char) (rest : List (List Char)) :
    joinNl ((a ++ '\n' :: b) :: rest) = joinNl (a :: b :: rest) := by
  rcases rest with _ | ⟨r, rs⟩
  · rfl
  · rw [joinNl_cons _ (by simp : (r :: rs : List (List Char)) ≠ []),
      joinNl_cons a (by simp), joinNl_cons b (by simp)]
    simp

theorem refLoop_merge_all :
    ∀ (ls : List (List Char)) (l : List Char),
      (joinNl (l :: ls)).length ≤ maxLength → refLoop l ls = [joinNl (l :: ls)]
  | [], l, _ => rfl
  | m :: rest, l, hle => by
    have h1 : joinNl (l :: m :: rest) = l ++ '\n' :: joinNl (m :: rest) :=
      joinNl_cons _ (by simp)
    have hgem : m.length ≤ (joinNl (m :: rest)).length := head_length_le_joinNl m rest
    have hlen : ¬l.length + m.length + 1 > maxLength := by
      rw [h1] at hle
      simp [List.length_append] at hle
      omega
    have hglue : joinNl ((l ++ '\n' :: m) :: rest) = joinNl (l :: m :: rest) :=
      joinNl_glue l m rest
    simp only [refLoop]
    rw [if_neg hlen, refLoop_merge_all rest (l ++ '\n' :: m) (by rw [hglue]; exact hle),
      hglue]

theorem joinNl_map_flatten :
    ∀ gs : List (List (List Char)), (∀ h ∈ gs, h ≠ []) →
      joinNl (gs.map joinNl) = joinNl gs.flatten
  | [], _ => rfl
  | [h], _ => by
    rw [show ([h] : List (List (List Char))).flatten = h by simp]
    rfl
  | h :: h2 :: gs, hne => by
    have hh : h ≠ [] := hne h (List.mem_cons_self _ _)
    have hh2 : h2 ≠ [] := hne h2 (List.mem_cons_of_mem _ (List.mem_cons_self _ _))
    have hne' : ∀ x ∈ h2 :: gs, x ≠ [] := fun x hx => hne x (List.mem_cons_of_mem _ hx)
    have hflat_ne : (h2 :: gs).flatten ≠ [] := by
      rw [List.flatten_cons]
      exact List.append_ne_nil_of_left_ne_nil hh2 _
    calc joinNl ((h :: h2 :: gs).map joinNl)
        = joinNl h ++ '\n' :: joinNl ((h2 :: gs).map joinNl) := by
          rw [List.map_cons, joinNl_cons _ (by simp)]
      _ = joinNl h ++ '\n' :: joinNl ((h2 :: gs).flatten) := by
          rw [joinNl_map_flatten (h2 :: gs) hne']
      _ = joinNl (h ++ (h2 :: gs).flatten) :=
          (joinNl_append h _ hh hflat_ne).symm
      _ = joinNl ((h :: h2 :: gs).flatten) := by simp

/-- An argument passed to a model inference entry point. -/
inductive PyArg
  | strA (v : List Char)
  | audA (v : List Int)
deriving DecidableEq

/-- An invocation of a model inference entry point: the Python attribute
name and the positional arguments (the `stream=False` keyword argument,
constant in the source, is omitted). -/
structure MCall where
  name : String
  args : List PyArg
deriving DecidableEq

/-- The external collaborators of `SynthesisThread.run`: the CosyVoice
model — a generator of `tts_speech` buffers for each inference call, plus
its sample rate — and `load_wav`.  Audio tensors are modelled as their
lists of samples along the time axis. -/
structure Env where
  gen : MCall → List (List Int)
  sample_rate : Nat
  loadWav : List Char → List Int

/-- The inference call `SynthesisThread.run` makes for one text segment
(source lines 112-131): `inference_zero_shot(segment, prompt_text, prompt)`
in zero-shot mode, `inference_cross_lingual(segment, prompt)` in
cross-lingual mode, `inference_instruct2(segment, instruct_text, prompt)`
in instruct mode; `none` when the mode matches no branch (the `else` arm
that emits the error). -/
def segmentCall (mode : String) (promptText instructText : List Char)
    (p : List Int) (seg : List Char) : Option MCall :=
  if mode = "zero_shot" then
    some ⟨"inference_zero_shot", [.strA seg, .strA promptText, .audA p]⟩
  else if mode = "cross_lingual" then
    some ⟨"inference_cross_lingual", [.strA seg, .audA p]⟩
  else if mode = "instruct" then
    some ⟨"inference_instruct2", [.strA seg, .strA instructText, .audA p]⟩
  else none

/-- One iteration of the segment loop: `none` is the `else` branch of
lines 132-134 (error and return), reached when the mode is unknown or the
reference audio is `None`; otherwise the call made, paired with the first
buffer the generator yielded, if any
(`for j, result in enumerate(...): if j == 0: append(...); break`). -/
def synthStep (env : Env) (mode : String) (promptText instructText : List Char)
    (prompt : Option (List Int)) (seg : List Char) :
    Option (MCall × Option (List Int)) :=
  match prompt with
  | none => none
  | some p =>
    match segmentCall mode promptText instructText p seg with
    | none => none
    | some c => some (c, (env.gen c).head?)

/-- The `for i, segment in enumerate(text_segments)` loop (source lines
107-134), accumulating the inference calls made and the collected
`audio_segments`; the second component is `none` when the loop aborted in
the error branch. -/
def synthLoop (env : Env) (mode : String) (promptText instructText : List Char)
    (prompt : Option (List Int)) :
    List (List Char) → List MCall → List (List Int) →
      List MCall × Option (List (List Int))
  | [], calls, acc => (calls, some acc)
  | seg :: rest, calls, acc =>
    match synthStep env mode promptText instructText prompt seg with
    | none => (calls, none)
    | some (c, none) =>
      synthLoop env mode promptText instructText prompt rest (calls ++ [c]) acc
    | some (c, some buf) =>
      synthLoop env mode promptText instructText prompt rest (calls ++ [c]) (acc ++ [buf])

/-- The audio merging step (source lines 139-148): a single buffer is used
as is, several are concatenated along the time axis. -/
def combineAudio : List (List Int) → List Int
  | [] => []
  | [a] => a
  | a :: b :: rest => (a :: b :: rest).flatten

/-- Python truthiness of `self.prompt_file` (source line 90): the
reference audio is loaded iff the path string is non-empty. -/
def promptOf (env : Env) (promptFile : List Char) : Option (List Int) :=
  if promptFile.isEmpty then none else some (env.loadWav promptFile)

/-- The observable outcome of `SynthesisThread.run`: the inference calls
made, the audio written to the output WAV file (if any), and whether the
`error` / `finished` signals were emitted. -/
structure RunResult where
  calls : List MCall
  saved : Option (List Int)
  errored : Bool
  finishedEmitted : Bool
deriving DecidableEq

/-- The tail of `run` after the segment loop (source lines 135-176):
`none` is the aborted loop (error already emitted); an empty
`audio_segments` list errors at line 172; a combined audio of zero length
errors at line 155; otherwise the combined audio is saved and `finished`
is emitted. -/
def finishRun (calls : List MCall) : Option (List (List Int)) → RunResult
  | none => ⟨calls, none, true, false⟩
  | some [] => ⟨calls, none, true, false⟩
  | some (a :: rest) =>
    if (combineAudio (a :: rest)).length = 0 then ⟨calls, none, true, false⟩
    else ⟨calls, some (combineAudio (a :: rest)), false, true⟩

/-- `SynthesisThread.run` (source lines 81-190): load the reference audio
if a path is given, segment the text, run the per-segment loop, then
finish as in `finishRun`.  The file-system checks of lines 168-170 are
assumed to pass. -/
def runThread (env : Env) (mode : String)
    (text promptFile promptText instructText : List Char) : RunResult :=
  finishRun
    (synthLoop env mode promptText instructText (promptOf env promptFile)
      (process_text_by_lines text) [] []).1
    (synthLoop env mode promptText instructText (promptOf env promptFile)
      (process_text_by_lines text) [] []).2

theorem combineAudio_eq_flatten : ∀ l : List (List Int), combineAudio l = l.flatten
  | [] => rfl
  | [a] => by simp [combineAudio]
  | _ :: _ :: _ => rfl

theorem runThread_eq_finish (env : Env) (mode : String)
    (text pf pt it : List Char) (calls : List MCall)
    (bufs : Option (List (List Int)))
    (h : synthLoop env mode pt it (promptOf env pf)
        (process_text_by_lines text) [] [] = (calls, bufs)) :
    runThread env mode text pf pt it = finishRun calls bufs := by
  unfold runThread
  rw [h]

theorem finishRun_some (calls : List MCall) (bl : List (List Int)) :
    finishRun calls (some bl) =
      if bl.flatten = [] then ⟨calls, none, true, false⟩
      else ⟨calls, some bl.flatten, false, true⟩ := by
  rcases bl with _ | ⟨a, rest⟩
  · simp [finishRun]
  · simp only [finishRun, combineAudio_eq_flatten, List.length_eq_zero]

theorem synthStep_of_call (env : Env) (mode : String) (pt it : List Char)
    (p : List Int) (seg : List Char) (c : MCall)
    (h : segmentCall mode pt it p seg = some c) :
    synthStep env mode pt it (some p) seg = some (c, (env.gen c).head?) := by
  show (match segmentCall mode pt it p seg with
    | none => none
    | some c => some (c, (env.gen c).head?)) = some (c, (env.gen c).head?)
  rw [h]

theorem segmentCall_instruct (pt it : List Char) (p : List Int) (seg : List Char) :
    segmentCall "instruct" pt it p seg =
      some ⟨"inference_instruct2", [.strA seg, .strA it, .audA p]⟩ := by
  unfold segmentCall
  rw [if_neg (by decide), if_neg (by decide), if_pos rfl]

theorem synthLoop_instruct_calls (env : Env) (pt it : List Char) (p : List Int) :
    ∀ (segs : List (List Char)) (calls : List MCall) (acc : List (List Int)),
      (synthLoop env "instruct" pt it (some p) segs calls acc).1 =
        calls ++ segs.map
          (fun seg => ⟨"inference_instruct2", [.strA seg, .strA it, .audA p]⟩)
  | [], calls, acc => by simp [synthLoop]
  | seg :: rest, calls, acc => by
    have hstep := synthStep_of_call env "instruct" pt it p seg _
      (segmentCall_instruct pt it p seg)
    simp only [synthLoop]
    rw [hstep]
    rcases hgen : (env.gen ⟨"inference_instruct2", [.strA seg, .strA it, .audA p]⟩).head?
      with _ | buf
    · show (synthLoop env "instruct" pt it (some p) rest
          (calls ++ [⟨"inference_instruct2", [.strA seg, .strA it, .audA p]⟩]) acc).1 = _
      rw [synthLoop_instruct_calls env pt it p rest]
      simp
    · show (synthLoop env "instruct" pt it (some p) rest
          (calls ++ [⟨"inference_instruct2", [.strA seg, .strA it, .audA p]⟩])
          (acc ++ [buf])).1 = _
      rw [synthLoop_instruct_calls env pt it p rest]
      simp

theorem finishRun_calls (calls : List MCall) :
    ∀ bufs : Option (List (List Int)), (finishRun calls bufs).calls = calls
  | none => rfl
  | some [] => rfl
  | some (a :: rest) => by
    simp only [finishRun]
    split <;> rfl

theorem runThread_calls (env : Env) (mode : String) (text pf pt it : List Char) :
    (runThread env mode text pf pt it).calls =
      (synthLoop env mode pt it (promptOf env pf)
        (process_text_by_lines text) [] []).1 := by
  rcases hsl : synthLoop env mode pt it (promptOf env pf)
      (process_text_by_lines text) [] [] with ⟨calls, bufs⟩
  rw [runThread_eq_finish env mode text pf pt it calls bufs hsl, finishRun_calls]

/-- First input line of the partial-output counterexample (80 characters,
so that two such lines do not fit in one 150-character segment). -/
def lineA : List Char := List.replicate 80 'a'

def lineB : List Char := List.replicate 80 'b'

def cexText : List Char := lineA ++ '\n' :: lineB

/-- Environment whose model yields no output for the segment `lineA` and
one buffer for every other call. -/
def cexEnv : Env where
  gen c := if c.args.head? = some (.strA lineA) then [] else [[1, 2]]
  sample_rate := 22050
  loadWav _ := [0]

/-- C1 (counterexample): the claim "the worker never saves a WAV file or
signals completion unless every text segment contributed an audio buffer"
is false.  With two segments, where the model yields nothing for the
first and a buffer for the second, `run` saves the partial audio and
emits `finished`: the failed segment is silently skipped, not treated as
an abort. -/
theorem run_saves_partial_output_cex :
    lineA ∈ process_text_by_lines cexText ∧
    (cexEnv.gen ⟨"inference_zero_shot",
      [.strA lineA, .strA [], .audA (cexEnv.loadWav ['p'])]⟩).head? = none ∧
    runThread cexEnv "zero_shot" cexText ['p'] [] [] =
      ⟨[⟨"inference_zero_shot", [.strA lineA, .strA [], .audA [0]]⟩,
        ⟨"inference_zero_shot", [.strA lineB, .strA [], .audA [0]]⟩],
       some [1, 2], false, true⟩ := by decide

/-- C1 (amended): the worker saves a file and emits `finished` (with no
error) exactly when the segment loop runs to completion and at least one
segment contributed a buffer with the concatenation non-empty; in every
other case it emits an error and saves nothing.  Segments whose inference
yields nothing are skipped rather than aborting the operation. -/
theorem run_saves_iff_some_buffer (env : Env) (mode : String)
    (text pf pt it : List Char) :
    (((runThread env mode text pf pt it).finishedEmitted = true ∧
      (runThread env mode text pf pt it).errored = false ∧
      (runThread env mode text pf pt it).saved ≠ none) ∨
     ((runThread env mode text pf pt it).finishedEmitted = false ∧
      (runThread env mode text pf pt it).errored = true ∧
      (runThread env mode text pf pt it).saved = none)) ∧
    (((runThread env mode text pf pt it).finishedEmitted = true ∨
      (runThread env mode text pf pt it).saved ≠ none) ↔
      ∃ (calls : List MCall) (bufs : List (List Int)),
        synthLoop env mode pt it (promptOf env pf)
            (process_text_by_lines text) [] [] = (calls, some bufs) ∧
          bufs.flatten ≠ []) := by
  rcases hsl : synthLoop env mode pt it (promptOf env pf)
      (process_text_by_lines text) [] [] with ⟨calls, bufs⟩
  rw [runThread_eq_finish env mode text pf pt it calls bufs hsl]
  rcases bufs with _ | bl
  · refine ⟨Or.inr ⟨rfl, rfl, rfl⟩, ?_⟩
    constructor
    · rintro (hfe | hsn)
      · exact absurd hfe (by simp [finishRun])
      · exact absurd hsn (by simp [finishRun])
    · rintro ⟨c2, b2, heq, -⟩
      exact absurd (congrArg Prod.snd heq) (by simp)
  · rw [finishRun_some]
    by_cases hz : bl.flatten = []
    · rw [if_pos hz]
      refine ⟨Or.inr ⟨rfl, rfl, rfl⟩, ?_⟩
      constructor
      · rintro (hfe | hsn)
        · exact absurd hfe (by simp)
        · exact absurd hsn (by simp)
      · rintro ⟨c2, b2, heq, hne2⟩
        have hb : some bl = some b2 := congrArg Prod.snd heq
        have hb2 : bl = b2 := by injection hb
        exact (hne2 (hb2 ▸ hz)).elim
    · rw [if_neg hz]
      refine ⟨Or.inl ⟨rfl, rfl, by simp⟩, ?_⟩
      exact ⟨fun _ => ⟨calls, bl, rfl, hz⟩, fun _ => Or.inl rfl⟩

/-- C2: every segment produced by `process_text_by_lines` has length at
most 150, except when it is the stripped content of a single input line
that is itself longer than 150 characters (such a segment contains no
newline). -/
theorem segment_length_bound (text : List Char) :
    ∀ s ∈ process_text_by_lines text,
      s.length ≤ 150 ∨
        ('\n' ∉ s ∧ 150 < s.length ∧
          ∃ l ∈ splitNl text, pyStrip l = s ∧ 150 < l.length) := by
  intro s hs
  obtain ⟨gs, hproc, hflat, hgood⟩ := process_structure text
  rw [hproc, List.mem_map] at hs
  obtain ⟨h, hh, hsh⟩ := hs
  obtain ⟨hne, hcl, hbound⟩ := hgood h hh
  by_cases hlen : s.length ≤ 150
  · exact Or.inl hlen
  · right
    rcases hbound with hb | ⟨l, rfl⟩
    · exfalso
      rw [hsh] at hb
      exact hlen (by simpa [maxLength] using hb)
    · have hls : l = s := hsh
      subst hls
      have hmem : l ∈ cleanLines text := by
        rw [← hflat]
        exact List.mem_flatten.mpr ⟨[l], hh, List.mem_singleton.mpr rfl⟩
      have hclean : cleanLine l := cleanLines_clean hmem
      have hraw : ∃ raw ∈ splitNl text, pyStrip raw = l := by
        unfold cleanLines at hmem
        rw [List.mem_filter] at hmem
        rcases List.mem_map.mp hmem.1 with ⟨raw, hr1, hr2⟩
        exact ⟨raw, hr1, hr2⟩
      obtain ⟨raw, hr1, hr2⟩ := hraw
      have hlgt : 150 < l.length := by omega
      refine ⟨hclean.2.1, hlgt, raw, hr1, hr2, ?_⟩
      have hle := pyStrip_length_le raw
      rw [hr2] at hle
      omega

theorem segment_length_bound_witness :
    (['a'] ∈ process_text_by_lines ['a']) ∧
      (List.length ['a'] ≤ 150 ∨
        ('\n' ∉ (['a'] : List Char) ∧ 150 < List.length ['a'] ∧
          ∃ l ∈ splitNl ['a'], pyStrip l = ['a'] ∧ 150 < l.length)) :=
  ⟨by decide, segment_length_bound ['a'] ['a'] (by decide)⟩

/-- C3 (counterexample): joining the segments with newlines does not
reconstruct the non-empty lines of the input exactly: for the input
`"a \nb"` the line `"a "` is kept only in stripped form `"a"`. -/
theorem segments_join_ne_raw_lines_cex :
    joinNl (process_text_by_lines ['a', ' ', '\n', 'b']) ≠
      joinNl ((splitNl ['a', ' ', '\n', 'b']).filter (fun l => !l.isEmpty)) := by decide

/-- C3 (amended): joining the segments with newlines reconstructs, in
order, the whitespace-stripped non-blank lines of the input. -/
theorem segments_join_eq_clean_lines (text : List Char) :
    joinNl (process_text_by_lines text) = joinNl (cleanLines text) := by
  obtain ⟨gs, hproc, hflat, hgood⟩ := process_structure text
  rw [hproc, joinNl_map_flatten gs (fun h hh => (hgood h hh).1), hflat]

/-- C4 (counterexample): the output differs from the reference greedy
policy stated without stripping — a whitespace-only line is not empty, so
the reference keeps it while the code drops it. -/
theorem process_ne_spec_reference_cex :
    process_text_by_lines [' '] ≠ specSegments [' '] := by decide

/-- C4 (amended): `process_text_by_lines` equals, on every input, the
reference greedy policy in which each line is whitespace-stripped and
blank lines are dropped before accumulation. -/
theorem process_eq_stripped_reference (text : List Char) :
    process_text_by_lines text = specSegmentsStripped text :=
  process_eq_spec text

def cex5Env : Env where
  gen _ := [[1]]
  sample_rate := 1
  loadWav _ := [0]

/-- C5 (counterexample): in instruct mode the worker does make inference
calls, but none of them is to an entry point named `inference_instruct`
(the code calls `inference_instruct2`). -/
theorem instruct_mode_no_inference_instruct_cex :
    (runThread cex5Env "instruct" ['h', 'i'] ['p'] [] ['s']).calls ≠ [] ∧
    ∀ c ∈ (runThread cex5Env "instruct" ['h', 'i'] ['p'] [] ['s']).calls,
      c.name ≠ "inference_instruct" := by decide

/-- C5 (amended): in instruct mode, with a reference audio file given,
the worker calls `inference_instruct2` once per segment, with the segment
text, the instruction string and the loaded reference audio. -/
theorem instruct_mode_calls_inference_instruct2 (env : Env)
    (text pf pt it : List Char) (hpf : pf ≠ []) :
    (runThread env "instruct" text pf pt it).calls =
      (process_text_by_lines text).map
        (fun seg => ⟨"inference_instruct2",
          [.strA seg, .strA it, .audA (env.loadWav pf)]⟩) := by
  rw [runThread_calls]
  have hprompt : promptOf env pf = some (env.loadWav pf) := by
    unfold promptOf
    rw [if_neg (by simpa [List.isEmpty_iff] using hpf)]
  rw [hprompt, synthLoop_instruct_calls]
  simp

theorem instruct_mode_calls_inference_instruct2_witness :
    ((['p'] : List Char) ≠ []) ∧
      (runThread cex5Env "instruct" ['h', 'i'] ['p'] [] ['s']).calls =
        (process_text_by_lines ['h', 'i']).map
          (fun seg => ⟨"inference_instruct2",
            [.strA seg, .strA ['s'], .audA (cex5Env.loadWav ['p'])]⟩) :=
  ⟨by decide,
    instruct_mode_calls_inference_instruct2 cex5Env ['h', 'i'] ['p'] [] ['s'] (by decide)⟩

/-- C6: when segmentation yields zero segments (all-blank input) the
worker reports an error, saves no file, and never emits `finished` — in
particular no empty WAV file is written. -/
theorem zero_segments_errors (env : Env) (mode : String) (text pf pt it : List Char)
    (h : process_text_by_lines text = []) :
    (runThread env mode text pf pt it).saved = none ∧
    (runThread env mode text pf pt it).finishedEmitted = false ∧
    (runThread env mode text pf pt it).errored = true := by
  have hsl : synthLoop env mode pt it (promptOf env pf)
      (process_text_by_lines text) [] [] = ([], some []) := by
    rw [h]
    rfl
  rw [runThread_eq_finish env mode text pf pt it [] (some []) hsl]
  exact ⟨rfl, rfl, rfl⟩

def cex6Env : Env where
  gen _ := [[1]]
  sample_rate := 2
  loadWav _ := [5]

theorem zero_segments_errors_witness :
    process_text_by_lines [' '] = [] ∧
      ((runThread cex6Env "zero_shot" [' '] ['p'] [] []).saved = none ∧
       (runThread cex6Env "zero_shot" [' '] ['p'] [] []).finishedEmitted = false ∧
       (runThread cex6Env "zero_shot" [' '] ['p'] [] []).errored = true) :=
  ⟨by decide, zero_segments_errors cex6Env "zero_shot" [' '] ['p'] [] [] (by decide)⟩

/-- C7: the audio saved by the worker is the concatenation, in segment
order, of the collected per-segment buffers, so its sample count is the
sum of the per-segment sample counts. -/
theorem combined_length_eq_sum (env : Env) (mode : String)
    (text pf pt it : List Char) (calls : List MCall) (bufs : List (List Int))
    (c : List Int)
    (hloop : synthLoop env mode pt it (promptOf env pf)
        (process_text_by_lines text) [] [] = (calls, some bufs))
    (hsaved : (runThread env mode text pf pt it).saved = some c) :
    c = bufs.flatten ∧ c.length = (bufs.map List.length).sum := by
  rw [runThread_eq_finish env mode text pf pt it calls (some bufs) hloop,
    finishRun_some] at hsaved
  by_cases hz : bufs.flatten = []
  · rw [if_pos hz] at hsaved
    exact absurd hsaved (by simp)
  · rw [if_neg hz] at hsaved
    have hc : bufs.flatten = c := by simpa using hsaved
    rw [← hc]
    exact ⟨rfl, List.length_flatten bufs⟩

def cex7Env : Env where
  gen _ := [[3, 4]]
  sample_rate := 3
  loadWav _ := [0]

theorem combined_length_eq_sum_witness :
    (synthLoop cex7Env "cross_lingual" [] [] (promptOf cex7Env ['p'])
        (process_text_by_lines ['a']) [] [] =
      ([⟨"inference_cross_lingual", [.strA ['a'], .audA [0]]⟩], some [[3, 4]])) ∧
    ((runThread cex7Env "cross_lingual" ['a'] ['p'] [] []).saved = some [3, 4]) ∧
    ([3, 4] = ([[3, 4]] : List (List Int)).flatten ∧
      List.length [3, 4] = (([[3, 4]] : List (List Int)).map List.length).sum) :=
  ⟨by decide, by decide,
    combined_length_eq_sum cex7Env "cross_lingual" ['a'] ['p'] [] []
      [⟨"inference_cross_lingual", [.strA ['a'], .audA [0]]⟩] [[3, 4]] [3, 4]
      (by decide) (by decide)⟩

/-- C8 (counterexample): a segment is not always a newline-joined
sequence of whole input lines: for the input `"a \nb"` the only segment
splits into lines `"a"` and `"b"`, and `"a"` is not an input line (the
input line was `"a "`). -/
theorem segment_lines_not_raw_lines_cex :
    ¬∀ s ∈ process_text_by_lines ['a', ' ', '\n', 'b'],
        ∀ l ∈ splitNl s, l ∈ splitNl ['a', ' ', '\n', 'b'] := by decide

/-- C8 (amended): the segments are the newline-joins of consecutive
non-empty groups that partition, in order, the whitespace-stripped
non-blank input lines: no line is split across segments, and every
stripped non-blank input line occurs in exactly one group. -/
theorem segments_partition_clean_lines (text : List Char) :
    ∃ gs : List (List (List Char)),
      process_text_by_lines text = gs.map joinNl ∧
      gs.flatten = cleanLines text ∧ ∀ h ∈ gs, h ≠ [] := by
  obtain ⟨gs, h1, h2, h3⟩ := process_structure text
  exact ⟨gs, h1, h2, fun h hh => (h3 h hh).1⟩

/-- C9: segmentation is idempotent on its own output: applying
`process_text_by_lines` to any produced segment returns that segment as a
one-element list. -/
theorem process_idempotent_on_segments (text : List Char) :
    ∀ s ∈ process_text_by_lines text, process_text_by_lines s = [s] := by
  intro s hs
  obtain ⟨gs, hproc, hflat, hgood⟩ := process_structure text
  rw [hproc, List.mem_map] at hs
  obtain ⟨h, hh, hsh⟩ := hs
  obtain ⟨hne, hcl, hbound⟩ := hgood h hh
  subst hsh
  rw [process_eq_spec]
  unfold specSegmentsStripped
  rw [cleanLines_joinNl h hne hcl]
  rcases hbound with hb | ⟨l, rfl⟩
  · rcases h with _ | ⟨l0, hrest⟩
    · exact absurd rfl hne
    · unfold greedyFrom
      exact refLoop_merge_all hrest l0 hb
  · rfl

theorem process_idempotent_on_segments_witness :
    (['a'] ∈ process_text_by_lines ['a']) ∧ process_text_by_lines ['a'] = [['a']] :=
  ⟨by decide, process_idempotent_on_segments ['a'] ['a'] (by decide)⟩

/-- C10: every produced segment is non-empty, and every line inside a
segment is non-empty and carries no leading or trailing whitespace. -/
theorem segment_lines_nonempty_stripped (text : List Char) :
    ∀ s ∈ process_text_by_lines text,
      s ≠ [] ∧ ∀ l ∈ splitNl s, l ≠ [] ∧ pyStrip l = l := by
  intro s hs
  obtain ⟨gs, hproc, hflat, hgood⟩ := process_structure text
  rw [hproc, List.mem_map] at hs
  obtain ⟨h, hh, hsh⟩ := hs
  obtain ⟨hne, hcl, -⟩ := hgood h hh
  subst hsh
  refine ⟨joinNl_ne_nil h hne (fun l hl => (hcl l hl).1), ?_⟩
  rw [splitNl_joinNl h hne (fun l hl => (hcl l hl).2.1)]
  intro l hl
  exact ⟨(hcl l hl).1, (hcl l hl).2.2⟩

theorem segment_lines_nonempty_stripped_witness :
    (['a'] ∈ process_text_by_lines ['a']) ∧
      ((['a'] : List Char) ≠ [] ∧ ∀ l ∈ splitNl ['a'], l ≠ [] ∧ pyStrip l = l) :=
  ⟨by decide, segment_lines_nonempty_stripped ['a'] ['a'] (by decide)⟩

end CosyVoice
